import Mathlib

/-!
# Verification of the CRC-32C engine (src/src/crc32c.cpp)

Shallow embedding of the CRC-32C checksum module: the feature detector
(`isSSE42Available`), the lookup-table generator (`initCrcTable`), the
software slicing-by-8 engine (`swCrc32c`), the hardware engine
(`hwCrc32c`, modelled from the spec since `crc32c_sse42.cpp` is not part
of the sources at hand), and the argument-marshalling dispatch
(`calculateCrc`).  Machine integers are modelled as `Nat` with explicit
`% 2^w` at the points where the C code truncates.
-/

namespace Crc32c

/-- Bit-mask for the SSE 4.2 flag in the CPU ID (`#define SSE4_2_FLAG 0x100000`). -/
def SSE4_2_FLAG : Nat := 0x100000

/-- The CRC-32C polynomial in reversed bit order (`#define CRC32C_POLYNOMIAL 0x82f63b78`). -/
def CRC32C_POLYNOMIAL : Nat := 0x82f63b78

/-! ## Feature detector (`cpuid`, `isSSE42Available`) -/

/-- The four registers filled by the `cpuid` instruction. -/
structure CpuidRegs where
  eax : Nat
  ebx : Nat
  ecx : Nat
  edx : Nat

/-- Model of `cpuid(op, reg)`: on x86/x86-64 hosts the instruction fills the four
registers from the hardware (modelled as the `some` case of the abstract
host description); on other platforms the `#else` branch sets
`reg[0] = reg[1] = reg[2] = reg[3] = 0`. -/
def cpuid (_op : Nat) (host : Option CpuidRegs) : CpuidRegs :=
  match host with
  | some r => r
  | none => ⟨0, 0, 0, 0⟩

/-- Model of `isSSE42Available`: issues `cpuid(1, reg)` and tests
`((reg[2] >> 20) & 1) == 1`. -/
def isSSE42Available (host : Option CpuidRegs) : Bool :=
  ((cpuid 1 host).ecx >>> 20) &&& 1 == 1

/-! ## The lookup table, as mathematical functions

`crcStep` is one line of the eight `crc = crc & 1 ? (crc >> 1) ^ CRC32C_POLYNOMIAL : crc >> 1;`
statements; `crcByte` is the eight of them chained, i.e. the value stored
in `crc32cTable[0][i]`; `crcTable j i` is the value stored in
`crc32cTable[j][i]` (the inner loop of `initCrcTable` iterates
`crc = crc32cTable[0][crc & 0xff] ^ (crc >> 8)` from slice 0). -/

/-- One bit of polynomial division: `crc & 1 ? (crc >> 1) ^ CRC32C_POLYNOMIAL : crc >> 1`. -/
def crcStep (crc : Nat) : Nat :=
  if crc % 2 = 1 then (crc / 2) ^^^ CRC32C_POLYNOMIAL else crc / 2

/-- The slice-0 table entry: eight `crcStep` iterations applied to the byte value. -/
def crcByte (i : Nat) : Nat :=
  crcStep (crcStep (crcStep (crcStep (crcStep (crcStep (crcStep (crcStep i)))))))

/-- The value `crcTable j i` is `crc32cTable[j][i]`: slice 0 is `crcByte`, and slice `j+1`
is obtained by `crc = crc32cTable[0][crc & 0xff] ^ (crc >> 8)` from slice `j`. -/
def crcTable : Nat → Nat → Nat
  | 0, i => crcByte i
  | j + 1, i => crcByte (crcTable j i % 256) ^^^ crcTable j i / 256

/-! ## The table generator `initCrcTable`, as a state transformer

The global `static uint32_t crc32cTable[8][256]` is modelled as a function
`Table`; `initCrcTable` is modelled imperatively: the first `for` loop
writes slice 0, the second nested loop reads slice 0 of the *current*
table state and writes slices 1–7. -/

/-- The global 8×256 table state (total function model of the C array). -/
def Table : Type := Nat → Nat → Nat

/-- Write value `v` into cell `[j][i]` of the table. -/
def tupd (t : Table) (j i v : Nat) : Table :=
  fun j2 i2 => if j2 = j ∧ i2 = i then v else t j2 i2

/-- The first loop of `initCrcTable`: for `i` below the counter, write
`crc32cTable[0][i]` with the eight-fold `crcStep` of `i`. -/
def initLoop1 (t : Table) : Nat → Table
  | 0 => t
  | n + 1 => tupd (initLoop1 t n) 0 n (crcByte n)

/-- The inner loop of the second loop of `initCrcTable`, for column `i`:
with `cnt` iterations remaining (so writing slices `8 - cnt` through `7`),
iterate `crc = crc32cTable[0][crc & 0xff] ^ (crc >> 8)` reading slice 0 of
the current table state, and store each value. -/
def innerLoop (i : Nat) : Nat → Nat → Table → Table
  | _, 0, t => t
  | crc, cnt + 1, t =>
      let c := t 0 (crc % 256) ^^^ crc / 256
      innerLoop i c cnt (tupd t (7 - cnt) i c)

/-- The second loop of `initCrcTable`: for each column `i` below the counter,
read `crc = crc32cTable[0][i]` and run the inner loop for slices 1–7. -/
def initLoop2 (t : Table) : Nat → Table
  | 0 => t
  | i + 1 =>
      let t2 := initLoop2 t i
      innerLoop i (t2 0 i) 7 t2

/-- Model of `initCrcTable`: populate slice 0 for all 256 byte values, then derive
slices 1–7. -/
def initCrcTable (t : Table) : Table :=
  initLoop2 (initLoop1 t 256) 256

/-! ## The software engine `swCrc32c` -/

/-- One byte-at-a-time step:
`crc = crc32cTable[0][(crc ^ *next++) & 0xff] ^ (crc >> 8)`
(used by both the alignment prologue and the tail loop). -/
def byteStep (t : Table) (crc b : Nat) : Nat :=
  t 0 ((crc ^^^ b) % 256) ^^^ crc / 256

/-- Fold `byteStep` over a list of bytes. -/
def bytesCrc (t : Table) : Nat → List Nat → Nat
  | crc, [] => crc
  | crc, b :: bs => bytesCrc t (byteStep t crc b) bs

/-- The wide read `*(uint64_t *) next`: an 8-byte little-endian read of the chunk. -/
def readLE64 (bs : List Nat) : Nat :=
  bs.foldr (fun b acc => b + 256 * acc) 0

/-- One iteration of the slicing-by-8 loop: `crc ^= *(uint64_t *) next;`
then the XOR of the eight table lookups (slice 7 for bits 0–7 of the
accumulator through slice 0 for bits 56–63; the last index `crc >> 56` is
unmasked in the C code since the accumulator is 64 bits wide). -/
def slice8Step (t : Table) (crc : Nat) (chunk : List Nat) : Nat :=
  let c := crc ^^^ readLE64 chunk
  t 7 (c % 256) ^^^ t 6 (c / 2 ^ 8 % 256) ^^^
  t 5 (c / 2 ^ 16 % 256) ^^^ t 4 (c / 2 ^ 24 % 256) ^^^
  t 3 (c / 2 ^ 32 % 256) ^^^ t 2 (c / 2 ^ 40 % 256) ^^^
  t 1 (c / 2 ^ 48 % 256) ^^^ t 0 (c / 2 ^ 56)

/-- The second and third loops of `swCrc32c`: while at least 8 bytes
remain (the buffer starts with eight cons cells), take a slicing-by-8
step on those 8 bytes and continue; then process the remainder (fewer
than 8 bytes) byte-at-a-time. -/
def bulkBytes (t : Table) : Nat → List Nat → Nat
  | crc, b0 :: b1 :: b2 :: b3 :: b4 :: b5 :: b6 :: b7 :: rest =>
      bulkBytes t (slice8Step t crc [b0, b1, b2, b3, b4, b5, b6, b7]) rest
  | crc, bs => bytesCrc t crc bs

/-- Number of bytes consumed by the alignment prologue of `swCrc32c`:
`while (len && ((uintptr_t) next & 7) != 0)`, so bytes are consumed until
the address is a multiple of 8 or the buffer is exhausted. -/
def alignPad (addr : Nat) : Nat := (8 - addr % 8) % 8

/-- The accumulator of `swCrc32c` just before the final complement, for a
non-empty buffer starting at address `addr`: the initial XOR with
`0xFFFFFFFF`, the alignment prologue, the slicing-by-8 loop and the tail
loop. -/
def swAccum (t : Table) (initialCrc addr : Nat) (buf : List Nat) : Nat :=
  let k := min buf.length (alignPad addr)
  bulkBytes t (bytesCrc t (initialCrc ^^^ 0xFFFFFFFF) (buf.take k)) (buf.drop k)

/-- Model of `swCrc32c(initialCrc, buf, len)` over table state `t`: returns the
initial CRC unchanged on an empty buffer, otherwise complements, runs the
three loops, complements again and truncates to 32 bits
(`(uint32_t)(crc ^= 0xFFFFFFFF)`). -/
def swCrc32cT (t : Table) (initialCrc addr : Nat) (buf : List Nat) : Nat :=
  if buf.length = 0 then initialCrc % 2 ^ 32
  else (swAccum t initialCrc addr buf ^^^ 0xFFFFFFFF) % 2 ^ 32

/-- The software engine with the table produced by module initialization. -/
def swCrc32c (initialCrc addr : Nat) (buf : List Nat) : Nat :=
  swCrc32cT crcTable initialCrc addr buf

/-- Follows the spec's words, for the refinement claim: the plain
byte-at-a-time slice-0 table CRC, with the accumulator XORed with
`0xFFFFFFFF` before processing and again after. -/
def swCrc32cSpec (initialCrc : Nat) (buf : List Nat) : Nat :=
  bytesCrc crcTable (initialCrc ^^^ 0xFFFFFFFF) buf ^^^ 0xFFFFFFFF

/-! ## The hardware engine `hwCrc32c`

Modelled from the spec: the implementation file `crc32c_sse42.cpp` is not
among the sources at hand (only its caller `calculateCrc` is), so the
hardware engine is modelled from §4.4 of the spec: complement, then fold
the buffer into the accumulator with the native CRC-32C instruction on
8-byte chunks while at least 8 bytes remain, then 4-, 2- and 1-byte
remainders, then complement.  The native instruction `crc32` on an N-byte
operand performs the Castagnoli polynomial division bit by bit, which on
one byte is: XOR the byte into the accumulator and run 8 reversed-order
polynomial-division steps; on a wider operand it folds the operand's
bytes in little-endian order. -/

/-- Modelled from the spec: the SSE 4.2 `crc32` instruction on one byte:
XOR the byte into the accumulator, then eight reversed-bit-order
polynomial-division steps. -/
def crc32u8 (crc b : Nat) : Nat := crcByte (crc ^^^ b % 256)

/-- Modelled from the spec: the SSE 4.2 `crc32` instruction on a multi-byte
operand folds the operand's bytes in little-endian order. -/
def crc32chunk (crc : Nat) (chunk : List Nat) : Nat := chunk.foldl crc32u8 crc

/-- Modelled from the spec: the chunk loop of `hwCrc32c` — 8-byte chunks
while at least 8 bytes remain, then 4-, 2- and 1-byte remainders. -/
def hwLoop : Nat → List Nat → Nat
  | crc, b0 :: b1 :: b2 :: b3 :: b4 :: b5 :: b6 :: b7 :: rest =>
      hwLoop (crc32chunk crc [b0, b1, b2, b3, b4, b5, b6, b7]) rest
  | crc, bs =>
      let p4 := if 4 ≤ bs.length then (crc32chunk crc (bs.take 4), bs.drop 4) else (crc, bs)
      let p2 := if 2 ≤ p4.2.length then (crc32chunk p4.1 (p4.2.take 2), p4.2.drop 2) else p4
      if 1 ≤ p2.2.length then crc32chunk p2.1 (p2.2.take 1) else p2.1

/-- Modelled from the spec: `hwCrc32c(initialCrc, buf, len)` — complement
the initial CRC, fold the buffer through the native instruction in
8/4/2/1-byte chunks, complement again, return as a 32-bit value. -/
def hwCrc32c (initialCrc : Nat) (buf : List Nat) : Nat :=
  (hwLoop (initialCrc ^^^ 0xFFFFFFFF) buf ^^^ 0xFFFFFFFF) % 2 ^ 32

/-! ## The dispatch boundary `calculateCrc`

The V8 values reaching the binding are modelled by `JSVal`; JavaScript
numbers are modelled as integers (`IsUint32` holds exactly for values
representable as an unsigned 32-bit integer).  A thrown `TypeError` is an
`Except.error`. -/

/-- The values the binding can receive from the JavaScript caller. -/
inductive JSVal where
  | undefined : JSVal
  | boolean : Bool → JSVal
  | number : Int → JSVal
  | str : List Nat → JSVal
  | buffer : List Nat → JSVal
  | object : JSVal
deriving DecidableEq, Repr

/-- The `TypeError`s thrown by `calculateCrc`. -/
inductive CrcError where
  /-- the message `"Invalid number of arguments!"` -/
  | badArgCount : CrcError
  /-- the message saying `useHardwareCrc` is not a boolean value as expected -/
  | badFlag : CrcError
  /-- the message `"Initial CRC-32C is not an integer value as expected!"` -/
  | badInitCrc : CrcError
  /-- the message `"Cannot compute CRC-32C for objects!"` -/
  | objectData : CrcError
deriving DecidableEq, Repr

/-- Reading `info[i]` in V8: a missing argument reads as `undefined`. -/
def argD (args : List JSVal) (i : Nat) : JSVal := args.getD i JSVal.undefined

/-- The `ToString` conversion of a non-buffer non-object value, as the byte
list of its UTF-8 representation (`String::Utf8Value`). -/
def jsToString : JSVal → List Nat
  | JSVal.undefined => [117, 110, 100, 101, 102, 105, 110, 101, 100]
  | JSVal.boolean true => [116, 114, 117, 101]
  | JSVal.boolean false => [102, 97, 108, 115, 101]
  | JSVal.number n =>
      if n < 0 then 45 :: (Nat.toDigits 10 n.natAbs).map Char.toNat
      else (Nat.toDigits 10 n.natAbs).map Char.toNat
  | JSVal.str bs => bs
  | JSVal.buffer bs => bs
  | JSVal.object => []

/-- Model of `calculateCrc(info)`: the argument-marshalling dispatch.  `addr` is
the start address of the data buffer handed to the software engine.
Mirrors the source's control flow: a zero-length argument list sets the
return value to `0` but *falls through* (no `return`) into the flag
check, which then throws `badFlag` since `info[0]` is `undefined`; more
than 3 arguments throws `badArgCount`; a non-boolean `info[0]` throws
`badFlag`; with 3 arguments a non-`Uint32` `info[2]` throws `badInitCrc`;
a buffer is checksummed directly, a plain object throws `objectData`, and
anything else is checksummed as its `ToString` bytes. -/
def calculateCrc (addr : Nat) (args : List JSVal) : Except CrcError Nat :=
  if 3 < args.length then Except.error CrcError.badArgCount
  else
    match argD args 0 with
    | JSVal.boolean useHardwareCrc =>
      let initRes : Except CrcError Nat :=
        if 2 < args.length then
          match argD args 2 with
          | JSVal.number n =>
              if 0 ≤ n ∧ n < 2 ^ 32 then Except.ok n.toNat
              else Except.error CrcError.badInitCrc
          | _ => Except.error CrcError.badInitCrc
        else Except.ok 0
      match initRes with
      | Except.error e => Except.error e
      | Except.ok initCrc =>
        match argD args 1 with
        | JSVal.buffer bs =>
            Except.ok (if useHardwareCrc then hwCrc32c initCrc bs
                       else swCrc32c initCrc addr bs)
        | JSVal.object => Except.error CrcError.objectData
        | v =>
            Except.ok (if useHardwareCrc then hwCrc32c initCrc (jsToString v)
                       else swCrc32c initCrc addr (jsToString v))
    | _ => Except.error CrcError.badFlag

/-! ## Bitwise toolkit over `Nat` -/

theorem xor_xor_self (x m : Nat) : x ^^^ m ^^^ m = x := by
  rw [Nat.xor_assoc, Nat.xor_self, Nat.xor_zero]

theorem xor_rot (a b c : Nat) : a ^^^ (b ^^^ c) = b ^^^ (a ^^^ c) := by
  rw [← Nat.xor_assoc, Nat.xor_comm a b, Nat.xor_assoc]

theorem xor_div_pow (a b k : Nat) : (a ^^^ b) / 2 ^ k = a / 2 ^ k ^^^ b / 2 ^ k := by
  apply Nat.eq_of_testBit_eq
  intro i
  simp only [← Nat.shiftRight_eq_div_pow, Nat.testBit_shiftRight, Nat.testBit_xor]

theorem xor_mod_pow (a b k : Nat) : (a ^^^ b) % 2 ^ k = a % 2 ^ k ^^^ b % 2 ^ k := by
  apply Nat.eq_of_testBit_eq
  intro i
  simp only [Nat.testBit_mod_two_pow, Nat.testBit_xor]
  by_cases h : i < k <;> simp [h]

theorem mod_xor_div_pow (x k : Nat) : x % 2 ^ k ^^^ 2 ^ k * (x / 2 ^ k) = x := by
  apply Nat.eq_of_testBit_eq
  intro i
  simp only [Nat.testBit_xor, Nat.testBit_mod_two_pow, Nat.testBit_mul_pow_two]
  by_cases h : i < k
  · simp [h, Nat.not_le.mpr h]
  · have hk : k ≤ i := Nat.not_lt.mp h
    have : (x / 2 ^ k).testBit (i - k) = x.testBit i := by
      rw [← Nat.shiftRight_eq_div_pow, Nat.testBit_shiftRight,
        Nat.add_sub_cancel' hk]
    simp [h, hk, this]

/-! ## Linearity and bounds of the polynomial-division steps -/

theorem crcStep_xor (x y : Nat) : crcStep (x ^^^ y) = crcStep x ^^^ crcStep y := by
  unfold crcStep
  rcases Nat.mod_two_eq_zero_or_one x with hx | hx <;>
    rcases Nat.mod_two_eq_zero_or_one y with hy | hy
  · rw [if_neg (by simp [Nat.xor_mod_two_eq_one]; omega),
      if_neg (by simp [hx]), if_neg (by simp [hy]), Nat.xor_div_two]
  · rw [if_pos (by simp [Nat.xor_mod_two_eq_one]; omega),
      if_neg (by simp [hx]), if_pos hy, Nat.xor_div_two, Nat.xor_assoc]
  · rw [if_pos (by simp [Nat.xor_mod_two_eq_one]; omega),
      if_pos hx, if_neg (by simp [hy]), Nat.xor_div_two, Nat.xor_assoc,
      Nat.xor_assoc, Nat.xor_comm (y / 2) CRC32C_POLYNOMIAL]
  · rw [if_neg (by simp [Nat.xor_mod_two_eq_one]; omega),
      if_pos hx, if_pos hy, Nat.xor_div_two, Nat.xor_assoc,
      xor_rot CRC32C_POLYNOMIAL, Nat.xor_self, Nat.xor_zero]

theorem crcStep_two_mul (v : Nat) : crcStep (2 * v) = v := by
  unfold crcStep
  simp [Nat.mul_mod_right, Nat.mul_div_cancel_left v (by norm_num : 0 < 2)]

theorem crcStep_lt {x : Nat} (h : x < 2 ^ 32) : crcStep x < 2 ^ 32 := by
  unfold crcStep
  have h2 : x / 2 < 2 ^ 32 := lt_of_le_of_lt (Nat.div_le_self x 2) h
  by_cases hb : x % 2 = 1
  · rw [if_pos hb]
    exact Nat.xor_lt_two_pow h2 (by norm_num [CRC32C_POLYNOMIAL])
  · rw [if_neg hb]
    exact h2

theorem crcByte_xor (x y : Nat) : crcByte (x ^^^ y) = crcByte x ^^^ crcByte y := by
  unfold crcByte
  simp only [crcStep_xor]

theorem crcByte_mul256 (h : Nat) : crcByte (256 * h) = h := by
  unfold crcByte
  rw [show (256 : Nat) * h = 2 * (2 * (2 * (2 * (2 * (2 * (2 * (2 * h))))))) by ring]
  simp only [crcStep_two_mul]

theorem crcByte_lt {x : Nat} (h : x < 2 ^ 32) : crcByte x < 2 ^ 32 := by
  unfold crcByte
  exact crcStep_lt (crcStep_lt (crcStep_lt (crcStep_lt
    (crcStep_lt (crcStep_lt (crcStep_lt (crcStep_lt h)))))))

theorem crcByte_split (x : Nat) : crcByte x = crcByte (x % 256) ^^^ x / 256 := by
  conv_lhs => rw [show x = x % 256 ^^^ 256 * (x / 256) by
    simpa using (mod_xor_div_pow x 8).symm]
  rw [crcByte_xor, crcByte_mul256]

/-! ## The table as iterated `crcByte` -/

theorem crcTable_zero (i : Nat) : crcTable 0 i = crcByte i := rfl

theorem crcTable_succ (j i : Nat) : crcTable (j + 1) i = crcByte (crcTable j i) :=
  (crcByte_split (crcTable j i)).symm

theorem crcTable_eq_iter (j i : Nat) : crcTable j i = crcByte^[j + 1] i := by
  induction j with
  | zero => simp [crcTable_zero]
  | succ j ih =>
    rw [crcTable_succ, ih]
    exact (Function.iterate_succ_apply' crcByte (j + 1) i).symm

theorem crcByteIter_xor (n x y : Nat) :
    crcByte^[n] (x ^^^ y) = crcByte^[n] x ^^^ crcByte^[n] y := by
  induction n generalizing x y with
  | zero => simp
  | succ n ih => simp only [Function.iterate_succ_apply, crcByte_xor, ih]

theorem crcByteIter_split (n x : Nat) :
    crcByte^[n + 1] x = crcByte^[n + 1] (x % 256) ^^^ crcByte^[n] (x / 256) := by
  rw [Function.iterate_succ_apply, crcByte_split x, crcByteIter_xor,
    ← Function.iterate_succ_apply]

theorem crcTable_lt {i : Nat} (j : Nat) (h : i < 2 ^ 32) : crcTable j i < 2 ^ 32 := by
  induction j with
  | zero => exact crcByte_lt h
  | succ j ih => rw [crcTable_succ]; exact crcByte_lt ih

/-! ## The byte-at-a-time loop against iterated `crcByte` -/

theorem byteStep_eq (crc b : Nat) (hb : b < 256) :
    byteStep crcTable crc b = crcByte (crc ^^^ b) := by
  unfold byteStep
  rw [crcTable_zero, crcByte_split (crc ^^^ b)]
  have hd : (crc ^^^ b) / 256 = crc / 256 := by
    have h8 := xor_div_pow crc b 8
    norm_num at h8
    simp [h8, Nat.div_eq_of_lt hb]
  rw [hd]

theorem byteStep_lt {crc : Nat} (b : Nat) (hcrc : crc < 2 ^ 32) :
    byteStep crcTable crc b < 2 ^ 32 := by
  unfold byteStep
  rw [crcTable_zero]
  refine Nat.xor_lt_two_pow (crcByte_lt ?_) (lt_of_le_of_lt (Nat.div_le_self crc 256) hcrc)
  exact lt_trans (Nat.mod_lt _ (by norm_num)) (by norm_num)

theorem bytesCrc_lt {crc : Nat} (bs : List Nat) (hcrc : crc < 2 ^ 32) :
    bytesCrc crcTable crc bs < 2 ^ 32 := by
  induction bs generalizing crc with
  | nil => exact hcrc
  | cons b bs ih => exact ih (byteStep_lt b hcrc)

theorem bytesCrc_append (t : Table) (crc : Nat) (xs ys : List Nat) :
    bytesCrc t crc (xs ++ ys) = bytesCrc t (bytesCrc t crc xs) ys := by
  induction xs generalizing crc with
  | nil => rfl
  | cons x xs ih =>
    simp only [List.cons_append, bytesCrc]
    exact ih (byteStep t crc x)

theorem readLE64_lt (bs : List Nat) (h : ∀ b ∈ bs, b < 256) :
    readLE64 bs < 2 ^ (8 * bs.length) := by
  induction bs with
  | nil => simp [readLE64]
  | cons b bs ih =>
    have hb : b < 256 := h b (by simp)
    have hW : readLE64 bs < 2 ^ (8 * bs.length) := ih (fun x hx => h x (by simp [hx]))
    have hpow : 2 ^ (8 * (b :: bs).length) = 256 * 2 ^ (8 * bs.length) := by
      simp only [List.length_cons]
      rw [show 8 * (bs.length + 1) = 8 * bs.length + 8 by ring, Nat.pow_add]
      ring
    have hstep : readLE64 (b :: bs) = b + 256 * readLE64 bs := rfl
    rw [hstep, hpow]
    calc b + 256 * readLE64 bs < 256 + 256 * readLE64 bs := by omega
      _ = 256 * (readLE64 bs + 1) := by ring
      _ ≤ 256 * 2 ^ (8 * bs.length) := Nat.mul_le_mul_left 256 (by omega)

theorem bytesCrc_eq_iter (bs : List Nat) (crc : Nat) (h : ∀ b ∈ bs, b < 256) :
    bytesCrc crcTable crc bs = crcByte^[bs.length] (crc ^^^ readLE64 bs) := by
  induction bs generalizing crc with
  | nil => simp [bytesCrc, readLE64]
  | cons b bs ih =>
    have hb : b < 256 := h b (by simp)
    have hrest : ∀ x ∈ bs, x < 256 := fun x hx => h x (by simp [hx])
    have hW : readLE64 (b :: bs) = b ^^^ 256 * readLE64 bs := by
      have hx := mod_xor_div_pow (b + 256 * readLE64 bs) 8
      have hm : (b + 256 * readLE64 bs) % 2 ^ 8 = b := by
        norm_num
        omega
      have hdv : (b + 256 * readLE64 bs) / 2 ^ 8 = readLE64 bs := by
        norm_num
        omega
      rw [hm, hdv] at hx
      have hstep : readLE64 (b :: bs) = b + 256 * readLE64 bs := rfl
      rw [hstep, ← hx]
      norm_num
    simp only [bytesCrc, List.length_cons]
    rw [ih (byteStep crcTable crc b) hrest, byteStep_eq crc b hb, hW,
      ← Nat.xor_assoc, Function.iterate_succ_apply]
    congr 1
    conv_rhs => rw [crcByte_xor, crcByte_mul256]

/-! ## Slicing-by-8 refines byte-at-a-time -/

theorem iter8_bytes (c : Nat) (hc : c < 2 ^ 64) :
    crcByte^[8] c =
      crcTable 7 (c % 256) ^^^ crcTable 6 (c / 2 ^ 8 % 256) ^^^
      crcTable 5 (c / 2 ^ 16 % 256) ^^^ crcTable 4 (c / 2 ^ 24 % 256) ^^^
      crcTable 3 (c / 2 ^ 32 % 256) ^^^ crcTable 2 (c / 2 ^ 40 % 256) ^^^
      crcTable 1 (c / 2 ^ 48 % 256) ^^^ crcTable 0 (c / 2 ^ 56) := by
  have hd64 : c / 2 ^ 56 / 256 = 0 := by
    rw [Nat.div_div_eq_div_mul]
    exact Nat.div_eq_of_lt (lt_of_lt_of_le hc (by norm_num))
  have hm56 : c / 2 ^ 56 % 256 = c / 2 ^ 56 := by
    apply Nat.mod_eq_of_lt
    apply (Nat.div_lt_iff_lt_mul (by positivity)).mpr
    calc c < 2 ^ 64 := hc
      _ = 256 * 2 ^ 56 := by norm_num
  have s1 : crcByte^[8] c = crcByte^[8] (c % 256) ^^^ crcByte^[7] (c / 2 ^ 8) := by
    have h := crcByteIter_split 7 c
    rw [show c / 256 = c / 2 ^ 8 by norm_num] at h
    exact h
  have s2 : crcByte^[7] (c / 2 ^ 8) =
      crcByte^[7] (c / 2 ^ 8 % 256) ^^^ crcByte^[6] (c / 2 ^ 16) := by
    have h := crcByteIter_split 6 (c / 2 ^ 8)
    rw [Nat.div_div_eq_div_mul, show (2 : Nat) ^ 8 * 256 = 2 ^ 16 by norm_num] at h
    exact h
  have s3 : crcByte^[6] (c / 2 ^ 16) =
      crcByte^[6] (c / 2 ^ 16 % 256) ^^^ crcByte^[5] (c / 2 ^ 24) := by
    have h := crcByteIter_split 5 (c / 2 ^ 16)
    rw [Nat.div_div_eq_div_mul, show (2 : Nat) ^ 16 * 256 = 2 ^ 24 by norm_num] at h
    exact h
  have s4 : crcByte^[5] (c / 2 ^ 24) =
      crcByte^[5] (c / 2 ^ 24 % 256) ^^^ crcByte^[4] (c / 2 ^ 32) := by
    have h := crcByteIter_split 4 (c / 2 ^ 24)
    rw [Nat.div_div_eq_div_mul, show (2 : Nat) ^ 24 * 256 = 2 ^ 32 by norm_num] at h
    exact h
  have s5 : crcByte^[4] (c / 2 ^ 32) =
      crcByte^[4] (c / 2 ^ 32 % 256) ^^^ crcByte^[3] (c / 2 ^ 40) := by
    have h := crcByteIter_split 3 (c / 2 ^ 32)
    rw [Nat.div_div_eq_div_mul, show (2 : Nat) ^ 32 * 256 = 2 ^ 40 by norm_num] at h
    exact h
  have s6 : crcByte^[3] (c / 2 ^ 40) =
      crcByte^[3] (c / 2 ^ 40 % 256) ^^^ crcByte^[2] (c / 2 ^ 48) := by
    have h := crcByteIter_split 2 (c / 2 ^ 40)
    rw [Nat.div_div_eq_div_mul, show (2 : Nat) ^ 40 * 256 = 2 ^ 48 by norm_num] at h
    exact h
  have s7 : crcByte^[2] (c / 2 ^ 48) =
      crcByte^[2] (c / 2 ^ 48 % 256) ^^^ crcByte^[1] (c / 2 ^ 56) := by
    have h := crcByteIter_split 1 (c / 2 ^ 48)
    rw [Nat.div_div_eq_div_mul, show (2 : Nat) ^ 48 * 256 = 2 ^ 56 by norm_num] at h
    exact h
  have t7 : crcTable 7 (c % 256) = crcByte^[8] (c % 256) := crcTable_eq_iter 7 _
  have t6 : crcTable 6 (c / 2 ^ 8 % 256) = crcByte^[7] (c / 2 ^ 8 % 256) := crcTable_eq_iter 6 _
  have t5 : crcTable 5 (c / 2 ^ 16 % 256) = crcByte^[6] (c / 2 ^ 16 % 256) := crcTable_eq_iter 5 _
  have t4 : crcTable 4 (c / 2 ^ 24 % 256) = crcByte^[5] (c / 2 ^ 24 % 256) := crcTable_eq_iter 4 _
  have t3 : crcTable 3 (c / 2 ^ 32 % 256) = crcByte^[4] (c / 2 ^ 32 % 256) := crcTable_eq_iter 3 _
  have t2 : crcTable 2 (c / 2 ^ 40 % 256) = crcByte^[3] (c / 2 ^ 40 % 256) := crcTable_eq_iter 2 _
  have t1 : crcTable 1 (c / 2 ^ 48 % 256) = crcByte^[2] (c / 2 ^ 48 % 256) := crcTable_eq_iter 1 _
  have t0 : crcTable 0 (c / 2 ^ 56) = crcByte^[1] (c / 2 ^ 56) := crcTable_eq_iter 0 _
  rw [s1, s2, s3, s4, s5, s6, s7, t7, t6, t5, t4, t3, t2, t1, t0]
  simp only [Nat.xor_assoc]

theorem slice8Step_eq (crc : Nat) (chunk : List Nat) (hlen : chunk.length = 8)
    (hb : ∀ b ∈ chunk, b < 256) (hcrc : crc < 2 ^ 32) :
    slice8Step crcTable crc chunk = bytesCrc crcTable crc chunk := by
  have hW : readLE64 chunk < 2 ^ 64 := by
    have := readLE64_lt chunk hb
    rw [hlen] at this
    simpa using this
  have hc : crc ^^^ readLE64 chunk < 2 ^ 64 :=
    Nat.xor_lt_two_pow (lt_trans hcrc (by norm_num)) hW
  rw [bytesCrc_eq_iter chunk crc hb, hlen, iter8_bytes _ hc]
  rfl

theorem bulkBytes_eq_aux : ∀ (n : Nat) (bs : List Nat), bs.length ≤ n →
    ∀ (crc : Nat), crc < 2 ^ 32 → (∀ b ∈ bs, b < 256) →
    bulkBytes crcTable crc bs = bytesCrc crcTable crc bs := by
  intro n
  induction n with
  | zero =>
    intro bs hlen crc _ _
    have hnil : bs = [] := List.eq_nil_of_length_eq_zero (Nat.le_zero.mp hlen)
    subst hnil
    rfl
  | succ n ih =>
    intro bs hlen crc hcrc hb
    rcases bs with _ | ⟨b0, _ | ⟨b1, _ | ⟨b2, _ | ⟨b3, _ | ⟨b4, _ | ⟨b5, _ | ⟨b6, _ | ⟨b7, rest⟩⟩⟩⟩⟩⟩⟩⟩
    · rfl
    · rfl
    · rfl
    · rfl
    · rfl
    · rfl
    · rfl
    · rfl
    · have hb8 : ∀ b ∈ [b0, b1, b2, b3, b4, b5, b6, b7], b < 256 := by
        intro b hbm
        simp only [List.mem_cons, List.not_mem_nil, or_false] at hbm
        rcases hbm with h | h | h | h | h | h | h | h <;> (subst h; exact hb _ (by simp))
      have hrest : ∀ b ∈ rest, b < 256 := fun b h => hb b (by simp [h])
      have hs := slice8Step_eq crc [b0, b1, b2, b3, b4, b5, b6, b7] rfl hb8 hcrc
      have hlt : slice8Step crcTable crc [b0, b1, b2, b3, b4, b5, b6, b7] < 2 ^ 32 := by
        rw [hs]
        exact bytesCrc_lt _ hcrc
      have hlenr : rest.length ≤ n := by
        simp only [List.length_cons] at hlen
        omega
      show bulkBytes crcTable (slice8Step crcTable crc [b0, b1, b2, b3, b4, b5, b6, b7]) rest =
        bytesCrc crcTable crc (b0 :: b1 :: b2 :: b3 :: b4 :: b5 :: b6 :: b7 :: rest)
      rw [ih rest hlenr _ hlt hrest, hs, ← bytesCrc_append]
      rfl

theorem bulkBytes_eq (bs : List Nat) (crc : Nat) (hcrc : crc < 2 ^ 32)
    (hb : ∀ b ∈ bs, b < 256) :
    bulkBytes crcTable crc bs = bytesCrc crcTable crc bs :=
  bulkBytes_eq_aux bs.length bs le_rfl crc hcrc hb

/-- The software engine equals the plain byte-at-a-time complemented CRC,
for every alignment of the buffer start address. -/
theorem swCrc32c_eq_spec (initialCrc addr : Nat) (buf : List Nat)
    (h1 : initialCrc < 2 ^ 32) (h2 : ∀ b ∈ buf, b < 256) :
    swCrc32c initialCrc addr buf = swCrc32cSpec initialCrc buf := by
  unfold swCrc32c swCrc32cT swCrc32cSpec
  have hm : (0xFFFFFFFF : Nat) < 2 ^ 32 := by norm_num
  have hc0 : initialCrc ^^^ 0xFFFFFFFF < 2 ^ 32 := Nat.xor_lt_two_pow h1 hm
  by_cases hl : buf.length = 0
  · have hnil : buf = [] := List.eq_nil_of_length_eq_zero hl
    subst hnil
    rw [if_pos hl, Nat.mod_eq_of_lt h1]
    show initialCrc = initialCrc ^^^ 0xFFFFFFFF ^^^ 0xFFFFFFFF
    rw [xor_xor_self]
  · rw [if_neg hl]
    unfold swAccum
    have htake : ∀ b ∈ buf.take (min buf.length (alignPad addr)), b < 256 :=
      fun b h => h2 b (List.mem_of_mem_take h)
    have hdrop : ∀ b ∈ buf.drop (min buf.length (alignPad addr)), b < 256 :=
      fun b h => h2 b (List.mem_of_mem_drop h)
    rw [bulkBytes_eq _ _ (bytesCrc_lt _ hc0) hdrop, ← bytesCrc_append,
      List.take_append_drop]
    exact Nat.mod_eq_of_lt (Nat.xor_lt_two_pow (bytesCrc_lt _ hc0) hm)

/-! ## The hardware engine refines byte-at-a-time -/

theorem crc32u8_eq (crc b : Nat) (hb : b < 256) :
    crc32u8 crc b = byteStep crcTable crc b := by
  unfold crc32u8
  rw [byteStep_eq crc b hb, Nat.mod_eq_of_lt hb]

theorem foldl_crc32u8_eq (bs : List Nat) (crc : Nat) (hb : ∀ b ∈ bs, b < 256) :
    List.foldl crc32u8 crc bs = bytesCrc crcTable crc bs := by
  induction bs generalizing crc with
  | nil => rfl
  | cons b bs ih =>
    simp only [List.foldl_cons, bytesCrc]
    rw [crc32u8_eq crc b (hb b (by simp))]
    exact ih _ (fun x hx => hb x (by simp [hx]))

theorem hwLoop_small (crc : Nat) (bs : List Nat) (h : bs.length < 8) :
    hwLoop crc bs = List.foldl crc32u8 crc bs := by
  rcases bs with _ | ⟨b0, _ | ⟨b1, _ | ⟨b2, _ | ⟨b3, _ | ⟨b4, _ | ⟨b5, _ | ⟨b6, _ | ⟨b7, rest⟩⟩⟩⟩⟩⟩⟩⟩
  · rfl
  · rfl
  · rfl
  · rfl
  · rfl
  · rfl
  · rfl
  · rfl
  · simp at h
    omega

theorem hwLoop_eq_aux : ∀ (n : Nat) (bs : List Nat), bs.length ≤ n →
    ∀ (crc : Nat), (∀ b ∈ bs, b < 256) →
    hwLoop crc bs = bytesCrc crcTable crc bs := by
  intro n
  induction n with
  | zero =>
    intro bs hlen crc _
    have hnil : bs = [] := List.eq_nil_of_length_eq_zero (Nat.le_zero.mp hlen)
    subst hnil
    rfl
  | succ n ih =>
    intro bs hlen crc hb
    rcases bs with _ | ⟨b0, _ | ⟨b1, _ | ⟨b2, _ | ⟨b3, _ | ⟨b4, _ | ⟨b5, _ | ⟨b6, _ | ⟨b7, rest⟩⟩⟩⟩⟩⟩⟩⟩
    · rw [hwLoop_small _ _ (by simp)]; exact foldl_crc32u8_eq _ _ hb
    · rw [hwLoop_small _ _ (by simp)]; exact foldl_crc32u8_eq _ _ hb
    · rw [hwLoop_small _ _ (by simp)]; exact foldl_crc32u8_eq _ _ hb
    · rw [hwLoop_small _ _ (by simp)]; exact foldl_crc32u8_eq _ _ hb
    · rw [hwLoop_small _ _ (by simp)]; exact foldl_crc32u8_eq _ _ hb
    · rw [hwLoop_small _ _ (by simp)]; exact foldl_crc32u8_eq _ _ hb
    · rw [hwLoop_small _ _ (by simp)]; exact foldl_crc32u8_eq _ _ hb
    · rw [hwLoop_small _ _ (by simp)]; exact foldl_crc32u8_eq _ _ hb
    · have hb8 : ∀ b ∈ [b0, b1, b2, b3, b4, b5, b6, b7], b < 256 := by
        intro b hbm
        simp only [List.mem_cons, List.not_mem_nil, or_false] at hbm
        rcases hbm with h | h | h | h | h | h | h | h <;> (subst h; exact hb _ (by simp))
      have hrest : ∀ b ∈ rest, b < 256 := fun b h => hb b (by simp [h])
      have hlenr : rest.length ≤ n := by
        simp only [List.length_cons] at hlen
        omega
      show hwLoop (crc32chunk crc [b0, b1, b2, b3, b4, b5, b6, b7]) rest =
        bytesCrc crcTable crc (b0 :: b1 :: b2 :: b3 :: b4 :: b5 :: b6 :: b7 :: rest)
      rw [ih rest hlenr _ hrest]
      unfold crc32chunk
      rw [foldl_crc32u8_eq _ _ hb8, ← bytesCrc_append]
      rfl

theorem hwLoop_eq (bs : List Nat) (crc : Nat) (hb : ∀ b ∈ bs, b < 256) :
    hwLoop crc bs = bytesCrc crcTable crc bs :=
  hwLoop_eq_aux bs.length bs le_rfl crc hb

/-- The hardware engine equals the plain byte-at-a-time complemented CRC. -/
theorem hwCrc32c_eq_spec (initialCrc : Nat) (buf : List Nat)
    (h1 : initialCrc < 2 ^ 32) (h2 : ∀ b ∈ buf, b < 256) :
    hwCrc32c initialCrc buf = swCrc32cSpec initialCrc buf := by
  unfold hwCrc32c swCrc32cSpec
  have hm : (0xFFFFFFFF : Nat) < 2 ^ 32 := by norm_num
  have hc0 : initialCrc ^^^ 0xFFFFFFFF < 2 ^ 32 := Nat.xor_lt_two_pow h1 hm
  rw [hwLoop_eq buf _ h2]
  exact Nat.mod_eq_of_lt (Nat.xor_lt_two_pow (bytesCrc_lt _ hc0) hm)

/-! ## What `initCrcTable` writes -/

theorem initLoop1_apply (t : Table) (n j i : Nat) :
    initLoop1 t n j i = if j = 0 ∧ i < n then crcByte i else t j i := by
  induction n with
  | zero =>
    have h : ¬(j = 0 ∧ i < 0) := by omega
    simp [initLoop1, h]
  | succ n ih =>
    show tupd (initLoop1 t n) 0 n (crcByte n) j i = _
    simp only [tupd]
    by_cases hup : j = 0 ∧ i = n
    · rw [if_pos hup, if_pos (by omega), hup.2]
    · rw [if_neg hup, ih]
      by_cases h1 : j = 0 ∧ i < n
      · rw [if_pos h1, if_pos ⟨h1.1, by omega⟩]
      · have h2 : ¬(j = 0 ∧ i < n + 1) := by
          intro hcon
          rcases hcon with ⟨hj, hi⟩
          rcases Nat.lt_succ_iff_lt_or_eq.mp hi with h | h
          · exact h1 ⟨hj, h⟩
          · exact hup ⟨hj, h⟩
        rw [if_neg h1, if_neg h2]

theorem innerLoop_apply : ∀ (cnt : Nat), cnt ≤ 7 → ∀ (i crc : Nat) (t : Table),
    (∀ x, x < 256 → t 0 x = crcByte x) → ∀ (j i2 : Nat),
    innerLoop i crc cnt t j i2 =
      if 8 - cnt ≤ j ∧ j ≤ 7 ∧ i2 = i then crcByte^[j - (7 - cnt)] crc
      else t j i2 := by
  intro cnt
  induction cnt with
  | zero =>
    intro _ i crc t _ j i2
    have h : ¬(8 - 0 ≤ j ∧ j ≤ 7 ∧ i2 = i) := by omega
    simp [innerLoop, h]
  | succ cnt ih =>
    intro hcnt i crc t hrow0 j i2
    have hc : t 0 (crc % 256) ^^^ crc / 256 = crcByte crc := by
      rw [hrow0 _ (Nat.mod_lt _ (by norm_num)), ← crcByte_split]
    show innerLoop i (t 0 (crc % 256) ^^^ crc / 256) cnt
        (tupd t (7 - cnt) i (t 0 (crc % 256) ^^^ crc / 256)) j i2 = _
    rw [hc]
    have hcnt7 : cnt ≤ 7 := by omega
    have hrow0u : ∀ x, x < 256 → tupd t (7 - cnt) i (crcByte crc) 0 x = crcByte x := by
      intro x hx
      have h7 : ¬((0 : Nat) = 7 - cnt ∧ x = i) := by
        intro hcon
        omega
      simp only [tupd]
      rw [if_neg h7]
      exact hrow0 x hx
    rw [ih hcnt7 i (crcByte crc) _ hrow0u j i2]
    by_cases hmain : 8 - cnt ≤ j ∧ j ≤ 7 ∧ i2 = i
    · rw [if_pos hmain, if_pos ⟨by omega, hmain.2.1, hmain.2.2⟩]
      have hexp : j - (7 - (cnt + 1)) = (j - (7 - cnt)) + 1 := by omega
      rw [hexp, Function.iterate_succ_apply]
    · rw [if_neg hmain]
      simp only [tupd]
      by_cases hup : j = 7 - cnt ∧ i2 = i
      · rw [if_pos hup, if_pos ⟨by omega, by omega, hup.2⟩]
        have hexp : j - (7 - (cnt + 1)) = 1 := by omega
        rw [hexp]
        simp
      · have hmain2 : ¬(8 - (cnt + 1) ≤ j ∧ j ≤ 7 ∧ i2 = i) := by
          intro hcon
          have hj : ¬(8 - cnt ≤ j) := fun hjj => hmain ⟨hjj, hcon.2.1, hcon.2.2⟩
          exact hup ⟨by omega, hcon.2.2⟩
        rw [if_neg hup, if_neg hmain2]

theorem initLoop2_apply : ∀ (n : Nat), n ≤ 256 → ∀ (t : Table),
    (∀ x, x < 256 → t 0 x = crcByte x) → ∀ (j i : Nat),
    initLoop2 t n j i =
      if 1 ≤ j ∧ j ≤ 7 ∧ i < n then crcByte^[j + 1] i else t j i := by
  intro n
  induction n with
  | zero =>
    intro _ t _ j i
    have h : ¬(1 ≤ j ∧ j ≤ 7 ∧ i < 0) := by omega
    simp [initLoop2, h]
  | succ n ih =>
    intro hn t hrow0 j i
    have hn2 : n ≤ 256 := by omega
    have hrow0n : ∀ x, x < 256 → initLoop2 t n 0 x = crcByte x := by
      intro x hx
      rw [ih hn2 t hrow0 0 x, if_neg (by omega)]
      exact hrow0 x hx
    show innerLoop n (initLoop2 t n 0 n) 7 (initLoop2 t n) j i = _
    rw [hrow0n n (by omega),
      innerLoop_apply 7 (by norm_num) n (crcByte n) (initLoop2 t n) hrow0n j i]
    simp only [show (8 : Nat) - 7 = 1 from rfl, show (7 : Nat) - 7 = 0 from rfl,
      Nat.sub_zero]
    by_cases hmain : 1 ≤ j ∧ j ≤ 7 ∧ i = n
    · rw [if_pos hmain, if_pos ⟨hmain.1, hmain.2.1, by omega⟩, hmain.2.2,
      ← Function.iterate_succ_apply]
    · rw [if_neg hmain, ih hn2 t hrow0 j i]
      by_cases h1 : 1 ≤ j ∧ j ≤ 7 ∧ i < n
      · rw [if_pos h1, if_pos ⟨h1.1, h1.2.1, by omega⟩]
      · have h2 : ¬(1 ≤ j ∧ j ≤ 7 ∧ i < n + 1) := by
          intro hcon
          have hne : ¬(i = n) := fun he => hmain ⟨hcon.1, hcon.2.1, he⟩
          exact h1 ⟨hcon.1, hcon.2.1, by omega⟩
        rw [if_neg h1, if_neg h2]

/-- Each cell written by `initCrcTable` holds the mathematical table value
`crcTable`; cells outside the 8×256 array are untouched. -/
theorem initCrcTable_apply (t : Table) (j i : Nat) :
    initCrcTable t j i = if j ≤ 7 ∧ i < 256 then crcTable j i else t j i := by
  unfold initCrcTable
  have hrow0 : ∀ x, x < 256 → initLoop1 t 256 0 x = crcByte x := by
    intro x hx
    rw [initLoop1_apply, if_pos ⟨rfl, hx⟩]
  rw [initLoop2_apply 256 le_rfl _ hrow0 j i]
  by_cases h1 : 1 ≤ j ∧ j ≤ 7 ∧ i < 256
  · rw [if_pos h1, if_pos ⟨h1.2.1, h1.2.2⟩, crcTable_eq_iter]
  · rw [if_neg h1, initLoop1_apply]
    by_cases hj0 : j = 0 ∧ i < 256
    · rw [if_pos hj0, if_pos ⟨by omega, hj0.2⟩, hj0.1, crcTable_zero]
    · have h2 : ¬(j ≤ 7 ∧ i < 256) := by
        intro hcon
        by_cases hj : j = 0
        · exact hj0 ⟨hj, hcon.2⟩
        · exact h1 ⟨by omega, hcon.1, hcon.2⟩
      rw [if_neg hj0, if_neg h2]

theorem initCrcTable_idem_table (t : Table) :
    initCrcTable (initCrcTable t) = initCrcTable t := by
  funext j i
  by_cases h : j ≤ 7 ∧ i < 256 <;> simp [initCrcTable_apply, h]

theorem isSSE42_testBit (r : CpuidRegs) :
    isSSE42Available (some r) = true ↔ r.ecx.testBit 20 = true := by
  unfold isSSE42Available cpuid
  rw [Nat.testBit_to_div_mod]
  simp [Nat.shiftRight_eq_div_pow, Nat.and_one_is_mod]

/-- The check `info[0]->IsBoolean()`. -/
def isBooleanV : JSVal → Bool
  | JSVal.boolean _ => true
  | _ => false

/-- The check `info[2]->IsUint32()`: the value is a number representable as an
unsigned 32-bit integer. -/
def isUint32V : JSVal → Bool
  | JSVal.number n => decide (0 ≤ n ∧ n < 2 ^ 32)
  | _ => false

/-! ## The claims -/

set_option maxRecDepth 100000 in
/-- C1: for the 9 ASCII bytes of the string of digits 1 through 9 with
initial CRC 0, the software engine returns `0xE3069283` at every buffer
alignment, and the (spec-modelled) hardware engine returns the same
value: the standard Castagnoli test vector holds under both paths. -/
theorem crc32c_known_vector_both_paths (addr : Nat) :
    swCrc32c 0 addr [0x31, 0x32, 0x33, 0x34, 0x35, 0x36, 0x37, 0x38, 0x39] = 0xE3069283 ∧
    hwCrc32c 0 [0x31, 0x32, 0x33, 0x34, 0x35, 0x36, 0x37, 0x38, 0x39] = 0xE3069283 := by
  constructor
  · rw [swCrc32c_eq_spec 0 addr _ (by norm_num) (by decide)]
    decide
  · decide

/-- C2: for every 32-bit initial CRC, every byte buffer and every
alignment of the buffer start address, `swCrc32c` — alignment prologue,
slicing-by-8 bulk loop and byte-wise remainder — returns exactly the
byte-at-a-time slice-0 CRC with the accumulator complemented before and
after processing. -/
theorem swCrc32c_refines_bytewise (initialCrc addr : Nat) (buf : List Nat)
    (h1 : initialCrc < 2 ^ 32) (h2 : ∀ b ∈ buf, b < 256) :
    swCrc32c initialCrc addr buf = swCrc32cSpec initialCrc buf :=
  swCrc32c_eq_spec initialCrc addr buf h1 h2

theorem swCrc32c_refines_bytewise_witness :
    (3 : Nat) < 2 ^ 32 ∧ (∀ b ∈ [250, 0, 1, 2, 3, 4, 5, 6, 7, 8, 9], b < 256) ∧
    swCrc32c 3 5 [250, 0, 1, 2, 3, 4, 5, 6, 7, 8, 9] =
      swCrc32cSpec 3 [250, 0, 1, 2, 3, 4, 5, 6, 7, 8, 9] :=
  ⟨by norm_num, by decide,
    swCrc32c_refines_bytewise 3 5 [250, 0, 1, 2, 3, 4, 5, 6, 7, 8, 9]
      (by norm_num) (by decide)⟩

/-- C3: after `initCrcTable` runs (from any prior table state), slice 0
at each byte value `i` holds the eight-fold polynomial-division step of
`i`, and each further slice satisfies
`table[j][i] = table[0][table[j-1][i] & 0xFF] ^ (table[j-1][i] >> 8)`. -/
theorem initCrcTable_recurrence (t : Table) (i : Nat) (hi : i < 256) :
    initCrcTable t 0 i =
      crcStep (crcStep (crcStep (crcStep (crcStep (crcStep (crcStep (crcStep i))))))) ∧
    ∀ j, 1 ≤ j → j ≤ 7 →
      initCrcTable t j i =
        initCrcTable t 0 (initCrcTable t (j - 1) i % 256) ^^^
          initCrcTable t (j - 1) i / 256 := by
  constructor
  · rw [initCrcTable_apply, if_pos ⟨by omega, hi⟩, crcTable_zero]
    rfl
  · intro j hj1 hj7
    rw [initCrcTable_apply t j i, if_pos ⟨hj7, hi⟩,
      initCrcTable_apply t (j - 1) i, if_pos ⟨by omega, hi⟩,
      initCrcTable_apply t 0 (crcTable (j - 1) i % 256),
      if_pos ⟨by omega, Nat.mod_lt _ (by norm_num)⟩, crcTable_zero]
    obtain ⟨j2, rfl⟩ : ∃ j2, j = j2 + 1 := ⟨j - 1, by omega⟩
    simp only [Nat.add_sub_cancel]
    rfl

set_option maxRecDepth 100000 in
theorem initCrcTable_recurrence_witness :
    (5 : Nat) < 256 ∧
    initCrcTable (fun _ _ => 0) 3 5 =
      initCrcTable (fun _ _ => 0) 0 (initCrcTable (fun _ _ => 0) (3 - 1) 5 % 256) ^^^
        initCrcTable (fun _ _ => 0) (3 - 1) 5 / 256 :=
  ⟨by norm_num,
    (initCrcTable_recurrence (fun _ _ => 0) 5 (by norm_num)).2 3
      (by norm_num) (by norm_num)⟩

/-- C4: the (spec-modelled) hardware engine and the software engine agree
on every 32-bit initial CRC and every byte buffer, and consequently the
dispatch returns the same checksum for the hardware path and the software
path on the same buffer. -/
theorem hw_sw_equivalence (initialCrc addr : Nat) (buf : List Nat)
    (h1 : initialCrc < 2 ^ 32) (h2 : ∀ b ∈ buf, b < 256) :
    hwCrc32c initialCrc buf = swCrc32c initialCrc addr buf ∧
    calculateCrc addr [JSVal.boolean true, JSVal.buffer buf] =
      calculateCrc addr [JSVal.boolean false, JSVal.buffer buf] := by
  have hmain : hwCrc32c initialCrc buf = swCrc32c initialCrc addr buf := by
    rw [hwCrc32c_eq_spec initialCrc buf h1 h2, swCrc32c_eq_spec initialCrc addr buf h1 h2]
  refine ⟨hmain, ?_⟩
  have htrue : calculateCrc addr [JSVal.boolean true, JSVal.buffer buf] =
      Except.ok (hwCrc32c 0 buf) := rfl
  have hfalse : calculateCrc addr [JSVal.boolean false, JSVal.buffer buf] =
      Except.ok (swCrc32c 0 addr buf) := rfl
  rw [htrue, hfalse, hwCrc32c_eq_spec 0 buf (by norm_num) h2,
    swCrc32c_eq_spec 0 addr buf (by norm_num) h2]

theorem hw_sw_equivalence_witness :
    (3 : Nat) < 2 ^ 32 ∧ (∀ b ∈ [9, 8, 7, 6, 5, 4, 3, 2, 1, 0, 255], b < 256) ∧
    hwCrc32c 3 [9, 8, 7, 6, 5, 4, 3, 2, 1, 0, 255] =
      swCrc32c 3 2 [9, 8, 7, 6, 5, 4, 3, 2, 1, 0, 255] :=
  ⟨by norm_num, by decide,
    (hw_sw_equivalence 3 2 [9, 8, 7, 6, 5, 4, 3, 2, 1, 0, 255]
      (by norm_num) (by decide)).1⟩

/-- C5: a zero-length buffer returns the initial CRC unchanged (no
complement XORs are applied), and the dispatch on an empty buffer with
the default initial CRC returns 0 under both path values. -/
theorem empty_buffer_identity (initialCrc addr : Nat) (h : initialCrc < 2 ^ 32) :
    swCrc32c initialCrc addr [] = initialCrc ∧
    ∀ (b : Bool) (addr2 : Nat),
      calculateCrc addr2 [JSVal.boolean b, JSVal.buffer []] = Except.ok 0 := by
  constructor
  · show initialCrc % 2 ^ 32 = initialCrc
    exact Nat.mod_eq_of_lt h
  · intro b addr2
    cases b
    · rfl
    · rfl

theorem empty_buffer_identity_witness :
    (77 : Nat) < 2 ^ 32 ∧ swCrc32c 77 3 [] = 77 ∧
    calculateCrc 0 [JSVal.boolean true, JSVal.buffer []] = Except.ok 0 :=
  ⟨by norm_num, (empty_buffer_identity 77 3 (by norm_num)).1,
    (empty_buffer_identity 77 3 (by norm_num)).2 true 0⟩

/-- C6: chaining supports exact segment concatenation: feeding the second
segment with the first segment's checksum as the initial CRC gives the
checksum of the concatenation, at arbitrary buffer alignments. -/
theorem chaining_concatenation (first second : List Nat) (a1 a2 a3 : Nat)
    (h1 : ∀ b ∈ first, b < 256) (h2 : ∀ b ∈ second, b < 256) :
    swCrc32c (swCrc32c 0 a1 first) a2 second = swCrc32c 0 a3 (first ++ second) := by
  have hall : ∀ b ∈ first ++ second, b < 256 := by
    intro b hb
    rcases List.mem_append.mp hb with h | h
    · exact h1 b h
    · exact h2 b h
  have hm : (0xFFFFFFFF : Nat) < 2 ^ 32 := by norm_num
  have hc0 : (0 : Nat) ^^^ 0xFFFFFFFF < 2 ^ 32 := Nat.xor_lt_two_pow (by norm_num) hm
  have hspec_lt : swCrc32cSpec 0 first < 2 ^ 32 := by
    unfold swCrc32cSpec
    exact Nat.xor_lt_two_pow (bytesCrc_lt _ hc0) hm
  rw [swCrc32c_eq_spec 0 a1 first (by norm_num) h1,
    swCrc32c_eq_spec _ a2 second hspec_lt h2,
    swCrc32c_eq_spec 0 a3 _ (by norm_num) hall]
  unfold swCrc32cSpec
  rw [xor_xor_self, bytesCrc_append]

theorem chaining_concatenation_witness :
    (∀ b ∈ [1, 2, 3, 4, 5], b < 256) ∧ (∀ b ∈ [6, 7, 8, 9, 250, 0], b < 256) ∧
    swCrc32c (swCrc32c 0 0 [1, 2, 3, 4, 5]) 5 [6, 7, 8, 9, 250, 0] =
      swCrc32c 0 2 ([1, 2, 3, 4, 5] ++ [6, 7, 8, 9, 250, 0]) :=
  ⟨by decide, by decide,
    chaining_concatenation [1, 2, 3, 4, 5] [6, 7, 8, 9, 250, 0] 0 5 2
      (by decide) (by decide)⟩

set_option maxRecDepth 100000 in
/-- C7 counterexample: a missing data argument does not report the
documented invalid-argument error — `calculateCrc` with only the
acceleration flag succeeds, returning the CRC-32C of the bytes of the
word `undefined` (the string coercion of the missing argument). -/
theorem calculate_missing_data_returns_ok :
    calculateCrc 0 [JSVal.boolean false] = Except.ok 1385702548 := by rfl

set_option maxRecDepth 100000 in
/-- C7 amended: the wrong-type acceleration flag and the non-`Uint32`
initial CRC each report the documented invalid-argument error, but a
missing data argument does not: the undefined value is coerced to the
string `undefined` and its checksum is returned as a success. -/
theorem invalid_argument_behavior :
    (∀ (addr : Nat) (args : List JSVal), args.length ≤ 3 →
      isBooleanV (argD args 0) = false →
      calculateCrc addr args = Except.error CrcError.badFlag) ∧
    (∀ (addr : Nat) (args : List JSVal) (b : Bool), args.length = 3 →
      argD args 0 = JSVal.boolean b → isUint32V (argD args 2) = false →
      calculateCrc addr args = Except.error CrcError.badInitCrc) ∧
    (∀ (addr : Nat) (b : Bool),
      calculateCrc addr [JSVal.boolean b] = Except.ok 1385702548) := by
  refine ⟨?_, ?_, ?_⟩
  · intro addr args hlen hflag
    unfold calculateCrc
    rw [if_neg (by omega)]
    rcases hv : argD args 0 with _ | b | n | s | bs | _
    · rfl
    · rw [hv] at hflag
      simp [isBooleanV] at hflag
    · rfl
    · rfl
    · rfl
    · rfl
  · intro addr args b hlen hflag hcrc
    unfold calculateCrc
    rw [if_neg (by omega), hflag, if_pos (by omega)]
    rcases hv : argD args 2 with _ | b2 | n | s | bs | _
    · rfl
    · rfl
    · rw [hv] at hcrc
      simp only [isUint32V, decide_eq_false_iff_not] at hcrc
      dsimp only
      rw [if_neg hcrc]
    · rfl
    · rfl
    · rfl
  · intro addr b
    cases b
    · have hred : calculateCrc addr [JSVal.boolean false] =
          Except.ok (swCrc32c 0 addr (jsToString JSVal.undefined)) := rfl
      rw [hred, swCrc32c_eq_spec 0 addr _ (by norm_num) (by decide)]
      exact congrArg Except.ok (by decide)
    · have hred : calculateCrc addr [JSVal.boolean true] =
          Except.ok (hwCrc32c 0 (jsToString JSVal.undefined)) := rfl
      rw [hred]
      exact congrArg Except.ok (by decide)

theorem invalid_argument_behavior_witness :
    calculateCrc 0 [JSVal.number 2] = Except.error CrcError.badFlag ∧
    calculateCrc 0 [JSVal.boolean true, JSVal.buffer [], JSVal.str []] =
      Except.error CrcError.badInitCrc ∧
    calculateCrc 9 [JSVal.boolean false] = Except.ok 1385702548 :=
  ⟨invalid_argument_behavior.1 0 [JSVal.number 2] (by norm_num) (by rfl),
    invalid_argument_behavior.2.1 0 [JSVal.boolean true, JSVal.buffer [], JSVal.str []]
      true rfl rfl (by rfl),
    invalid_argument_behavior.2.2 9 false⟩

/-- C8: `isSSE42Available` returns true exactly when bit 20 of the ECX
feature-flags register of the CPUID leaf-1 query is set; on platforms
without the CPUID query it returns false; and, being a pure function of
the host, it returns the same value on every call. -/
theorem isSSE42Available_spec :
    (∀ r : CpuidRegs, isSSE42Available (some r) = true ↔ r.ecx.testBit 20 = true) ∧
    isSSE42Available none = false ∧
    ∀ host : Option CpuidRegs, isSSE42Available host = isSSE42Available host :=
  ⟨isSSE42_testBit, rfl, fun _ => rfl⟩

/-- C9: `initCrcTable` is idempotent — running it a second time leaves
every cell of the table unchanged, and hence every software checksum
computed over the resulting table state is unchanged. -/
theorem initCrcTable_idempotent (t : Table) :
    initCrcTable (initCrcTable t) = initCrcTable t ∧
    ∀ (initialCrc addr : Nat) (buf : List Nat),
      swCrc32cT (initCrcTable (initCrcTable t)) initialCrc addr buf =
        swCrc32cT (initCrcTable t) initialCrc addr buf := by
  have h := initCrcTable_idem_table t
  exact ⟨h, fun initialCrc addr buf => by rw [h]⟩

/-- C10: the 64-bit accumulator of `swCrc32c` keeps its upper 32 bits
zero: the initial complement is below `2^32`, the byte-at-a-time step and
the slicing-by-8 step both preserve being below `2^32` (the 64-bit word
XORed in is fully reduced by the eight table lookups), and for a
non-empty all-byte buffer the value before the final 32-bit cast is below
`2^32`, so the cast loses no information. -/
theorem accumulator_32bit_invariant :
    (∀ initialCrc : Nat, initialCrc < 2 ^ 32 → initialCrc ^^^ 0xFFFFFFFF < 2 ^ 32) ∧
    (∀ crc b : Nat, crc < 2 ^ 32 → byteStep crcTable crc b < 2 ^ 32) ∧
    (∀ (crc : Nat) (chunk : List Nat), crc < 2 ^ 32 → chunk.length = 8 →
      (∀ b ∈ chunk, b < 256) → slice8Step crcTable crc chunk < 2 ^ 32) ∧
    (∀ (initialCrc addr : Nat) (buf : List Nat), initialCrc < 2 ^ 32 →
      (∀ b ∈ buf, b < 256) → buf.length ≠ 0 →
      swAccum crcTable initialCrc addr buf ^^^ 0xFFFFFFFF < 2 ^ 32 ∧
      swCrc32c initialCrc addr buf = swAccum crcTable initialCrc addr buf ^^^ 0xFFFFFFFF) := by
  refine ⟨?_, ?_, ?_, ?_⟩
  · intro initialCrc h
    exact Nat.xor_lt_two_pow h (by norm_num)
  · intro crc b hcrc
    exact byteStep_lt b hcrc
  · intro crc chunk hcrc hlen hb
    rw [slice8Step_eq crc chunk hlen hb hcrc]
    exact bytesCrc_lt _ hcrc
  · intro initialCrc addr buf h1 h2 hne
    have hc0 : initialCrc ^^^ 0xFFFFFFFF < 2 ^ 32 := Nat.xor_lt_two_pow h1 (by norm_num)
    have hdrop : ∀ b ∈ buf.drop (min buf.length (alignPad addr)), b < 256 :=
      fun b h => h2 b (List.mem_of_mem_drop h)
    have hacc : swAccum crcTable initialCrc addr buf =
        bytesCrc crcTable (initialCrc ^^^ 0xFFFFFFFF) buf := by
      unfold swAccum
      rw [bulkBytes_eq _ _ (bytesCrc_lt _ hc0) hdrop, ← bytesCrc_append,
        List.take_append_drop]
    have hlt : swAccum crcTable initialCrc addr buf ^^^ 0xFFFFFFFF < 2 ^ 32 := by
      rw [hacc]
      exact Nat.xor_lt_two_pow (bytesCrc_lt _ hc0) (by norm_num)
    refine ⟨hlt, ?_⟩
    show swCrc32cT crcTable initialCrc addr buf = _
    unfold swCrc32cT
    rw [if_neg hne]
    exact Nat.mod_eq_of_lt hlt

set_option maxRecDepth 100000 in
theorem accumulator_32bit_invariant_witness :
    byteStep crcTable 123456 300 < 2 ^ 32 ∧
    slice8Step crcTable 0xDEADBEEF [1, 2, 3, 4, 5, 6, 7, 255] < 2 ^ 32 ∧
    swCrc32c 7 3 [1, 2, 3, 4, 5, 6, 7, 8, 9] =
      swAccum crcTable 7 3 [1, 2, 3, 4, 5, 6, 7, 8, 9] ^^^ 0xFFFFFFFF :=
  ⟨accumulator_32bit_invariant.2.1 123456 300 (by norm_num),
    accumulator_32bit_invariant.2.2.1 0xDEADBEEF [1, 2, 3, 4, 5, 6, 7, 255]
      (by norm_num) rfl (by decide),
    (accumulator_32bit_invariant.2.2.2 7 3 [1, 2, 3, 4, 5, 6, 7, 8, 9]
      (by norm_num) (by decide) (by decide)).2⟩

end Crc32c
